import Mathlib

/-!
Verification of the migration-pipeline core of `auth-gateway`
(`scripts/migration/lib`): the user deduplicator, the bulk importer and the
verification report.  Python code is shallowly embedded: dataclasses become
structures, the `seen` dict becomes an insertion-ordered association list,
exceptions become `Except`, and the network is an oracle parameter giving
each batch request its outcome.
-/

set_option maxHeartbeats 1000000

namespace AuthGateway

/-! ## Data model (`scripts/migration/lib/__init__.py`) -/

inductive DedupStrategy
  | NONE
  | KEEP_LATEST
  | KEEP_FIRST
  | ERROR
deriving DecidableEq, Repr

structure DedupConfig where
  key : String := "email"
  strategy : DedupStrategy := .KEEP_LATEST
deriving DecidableEq, Repr

/-- `SourceUser`; `created_at : datetime` is modelled as an integer timestamp
(only its total order is used). -/
structure SourceUser where
  id : String
  email : Option String := none
  username : Option String := none
  password_hash : Option String := none
  full_name : Option String := none
  phone : Option String := none
  is_active : Bool := true
  email_verified : Bool := false
  phone_verified : Bool := false
  created_at : Option Int := none
  roles : List Int := []
deriving DecidableEq, Repr

structure DedupStats where
  total : Nat := 0
  unique : Nat := 0
  duplicates : Nat := 0
  skipped_no_key : Nat := 0
deriving DecidableEq, Repr

structure ConflictRecord where
  key : String
  existing : SourceUser
  duplicate : SourceUser
deriving DecidableEq, Repr

/-- `DuplicateUserError`: the raised exception's message interpolates exactly
these three values. -/
structure DuplicateUserError where
  key : String
  existing_id : String
  duplicate_id : String
deriving DecidableEq, Repr

/-! ## Deduplicator (`scripts/migration/lib/deduplicator.py`) -/

/-- `str.lower()` on the ASCII fragment, written over the character list so
that it evaluates inside the kernel. -/
def pyLower (s : String) : String := String.mk (s.data.map Char.toLower)

/-- `str.strip()`: drop leading and trailing whitespace. -/
def pyStrip (s : String) : String :=
  String.mk (((s.data.dropWhile Char.isWhitespace).reverse.dropWhile Char.isWhitespace).reverse)

/-- Python truthiness of `str | None`: `None` and `""` are falsy. -/
def pyTruthy : Option String → Bool
  | none => false
  | some s => !s.data.isEmpty

/-- Python `a or b` on `str | None` values: `a` unless `a` is falsy. -/
def pyOr (a b : Option String) : Option String :=
  if pyTruthy a then a else b

/-- `UserDeduplicator._extract_key`. -/
def _extract_key (config : DedupConfig) (user : SourceUser) : Option String :=
  if config.key = "email" then
    if pyTruthy user.email then some (pyStrip (pyLower (user.email.getD ""))) else none
  else if config.key = "phone" then
    if pyTruthy user.phone then some (pyStrip (user.phone.getD "")) else none
  else if config.key = "username" then
    if pyTruthy user.username then some (pyStrip (pyLower (user.username.getD ""))) else none
  else if config.key = "email_or_phone" then
    let email_key := if pyTruthy user.email then some (pyStrip (pyLower (user.email.getD ""))) else none
    let phone_key := if pyTruthy user.phone then some (pyStrip (user.phone.getD "")) else none
    pyOr email_key phone_key
  else if config.key = "username_or_email" then
    let username_key :=
      if pyTruthy user.username then some (pyStrip (pyLower (user.username.getD ""))) else none
    let email_key := if pyTruthy user.email then some (pyStrip (pyLower (user.email.getD ""))) else none
    pyOr username_key email_key
  else none

/-- `UserDeduplicator._should_replace`. -/
def _should_replace (new_user existing_user : SourceUser) : Bool :=
  match new_user.created_at with
  | none => false
  | some n =>
    match existing_user.created_at with
    | none => true
    | some e => n > e

/-- Lookup in the `seen` dict, modelled as an insertion-ordered association
list with pairwise-distinct keys. -/
def dictFind (m : List (String × SourceUser)) (k : String) : Option SourceUser :=
  (m.find? (fun p => p.1 == k)).map (·.2)

/-- `seen[key] = user`: overwrite in place when the key is present (keeping its
position, as a Python dict does), else append. -/
def dictSet (m : List (String × SourceUser)) (k : String) (u : SourceUser) :
    List (String × SourceUser) :=
  if m.any (fun p => p.1 == k) then m.map (fun p => if p.1 == k then (k, u) else p)
  else m ++ [(k, u)]

/-- The `for i, u in enumerate(unique_users): if u is existing: ...` scan.
Python compares by object identity; canonical records in `unique_users` are
structurally distinct (their keys differ), so first structural match
coincides with identity. -/
def replaceFirst : List SourceUser → SourceUser → SourceUser → List SourceUser
  | [], _, _ => []
  | x :: xs, old, new => if x = old then new :: xs else x :: replaceFirst xs old new

/-- The mutable state of one `deduplicate` run. -/
structure DedupState where
  seen : List (String × SourceUser)
  unique_users : List SourceUser
  stats : DedupStats
  conflicts : List ConflictRecord
deriving DecidableEq, Repr

def initState : DedupState := ⟨[], [], {}, []⟩

/-- One iteration of the `for user in users` loop of
`UserDeduplicator.deduplicate`. -/
def dedupStep (config : DedupConfig) (st : DedupState) (user : SourceUser) :
    Except DuplicateUserError DedupState :=
  let stats := { st.stats with total := st.stats.total + 1 }
  match _extract_key config user with
  | none =>
      .ok { st with stats := { stats with skipped_no_key := stats.skipped_no_key + 1 } }
  | some key =>
    match dictFind st.seen key with
    | none =>
        .ok { seen := dictSet st.seen key user,
              unique_users := st.unique_users ++ [user],
              stats := { stats with unique := stats.unique + 1 },
              conflicts := st.conflicts }
    | some existing =>
        let stats := { stats with duplicates := stats.duplicates + 1 }
        let conflicts := st.conflicts ++ [⟨key, existing, user⟩]
        if config.strategy = DedupStrategy.ERROR then
          .error ⟨key, existing.id, user.id⟩
        else if config.strategy = DedupStrategy.KEEP_LATEST then
          if _should_replace user existing then
            if st.unique_users.contains existing then
              .ok { seen := dictSet st.seen key user,
                    unique_users := replaceFirst st.unique_users existing user,
                    stats := stats, conflicts := conflicts }
            else
              .ok { st with stats := stats, conflicts := conflicts }
          else
            .ok { st with stats := stats, conflicts := conflicts }
        else
          .ok { st with stats := stats, conflicts := conflicts }

def dedupGo (config : DedupConfig) :
    DedupState → List SourceUser → Except DuplicateUserError DedupState
  | st, [] => .ok st
  | st, user :: users =>
    match dedupStep config st user with
    | .error e => .error e
    | .ok st' => dedupGo config st' users

/-- `UserDeduplicator.deduplicate` on a fresh deduplicator; on success returns
the deduplicated list together with the final `stats` and `conflicts` of the
instance. -/
def deduplicate (config : DedupConfig) (users : List SourceUser) :
    Except DuplicateUserError (List SourceUser × DedupStats × List ConflictRecord) :=
  if config.strategy = DedupStrategy.NONE then
    .ok (users, { total := users.length, unique := users.length }, [])
  else
    match dedupGo config initState users with
    | .error e => .error e
    | .ok st => .ok (st.unique_users, st.stats, st.conflicts)

/-! ## Importer (`scripts/migration/lib/importer.py`) -/

inductive PasswordStrategy
  | TRANSFER
  | FORCE_RESET
  | NONE
deriving DecidableEq, Repr

structure PasswordConfig where
  strategy : PasswordStrategy := .TRANSFER
deriving DecidableEq, Repr

/-- `RolesConfig`; the `mapping : dict[int, str]` is an association list with
pairwise-distinct keys. -/
structure RolesConfig where
  enabled : Bool := false
  mapping : List (Int × String) := []
deriving DecidableEq, Repr

def mapLookup (m : List (Int × String)) (k : Int) : Option String :=
  (m.find? (fun p => p.1 == k)).map (·.2)

inductive ImportStatus
  | CREATED
  | EXISTING
  | SKIPPED
  | UPDATED
  | ERROR
deriving DecidableEq, Repr

structure ImportResult where
  source_id : String
  ag_id : Option String := none
  status : ImportStatus := .CREATED
  note : String := ""
deriving DecidableEq, Repr

/-- `ImportStats`; fields are `Int` because the success path adds counts taken
verbatim from the response JSON. -/
structure ImportStats where
  total : Int := 0
  created : Int := 0
  existing : Int := 0
  skipped : Int := 0
  updated : Int := 0
  errors : Int := 0
deriving DecidableEq, Repr

/-- One element of the response's `details` list (a JSON object whose fields
may be absent). -/
structure ResponseDetail where
  status : Option String := none
  user_id : Option String := none
  reason : Option String := none
deriving DecidableEq, Repr

/-- The parsed JSON body of a successful bulk-import response; each count is
`data.get(..., 0)`. -/
structure ImportResponse where
  imported : Int := 0
  skipped : Int := 0
  updated : Int := 0
  errors : Int := 0
  details : List ResponseDetail := []
deriving DecidableEq, Repr

/-- What the network does to one batch request: a parsed success body, an
`httpx.HTTPStatusError` raised by `raise_for_status` (carrying the formatted
`HTTP <code>: <text>` message), or any other exception (carrying the formatted
`Request failed: ...` message). -/
inductive BatchOutcome
  | success (data : ImportResponse)
  | httpError (error_msg : String)
  | requestError (error_msg : String)
deriving DecidableEq, Repr

/-- Python `s.split("@")[0]`: the prefix before the first `@`, or all of `s`
when there is none. -/
def emailLocalPart (s : String) : String := String.mk (s.data.takeWhile (· != '@'))

/-- The wire dict built by `_build_import_entry`: a key that is only set
conditionally is an `Option` field, `none` when the key is absent. -/
structure ImportEntry where
  is_active : Bool
  email_verified : Bool
  phone_verified : Bool
  email : Option String := none
  phone : Option String := none
  username : Option String := none
  full_name : Option String := none
  password_hash_import : Option String := none
  id : Option String := none
  app_roles : Option (List String) := none
deriving DecidableEq, Repr

/-- `AuthGatewayImporter._build_import_entry`; a dict key that is never set is
an `Option` field left `none`. -/
def _build_import_entry (password_config : PasswordConfig)
    (roles_config : Option RolesConfig) (user : SourceUser) : ImportEntry :=
  let email := if pyTruthy user.email then user.email else none
  let phone := if pyTruthy user.phone then user.phone else none
  let username0 := user.username
  let username1 :=
    if !pyTruthy username0 && pyTruthy user.email
    then some (emailLocalPart (user.email.getD "")) else username0
  let username2 :=
    if !pyTruthy username1 && pyTruthy user.phone
    then some (String.mk ((user.phone.getD "").data.dropWhile (· == '+'))) else username1
  let username := if pyTruthy username2 then username2 else none
  let full_name := if pyTruthy user.full_name then user.full_name else none
  let password_hash_import :=
    if password_config.strategy == PasswordStrategy.TRANSFER && pyTruthy user.password_hash
    then user.password_hash else none
  let idField := if pyTruthy (some user.id) then some user.id else none
  let app_roles :=
    match roles_config with
    | some rc =>
      if rc.enabled && !user.roles.isEmpty then
        let roles := user.roles.filterMap (fun r => mapLookup rc.mapping r)
        if roles.isEmpty then none else some roles
      else none
    | none => none
  { is_active := user.is_active,
    email_verified := user.email_verified,
    phone_verified := user.phone_verified,
    email := email, phone := phone, username := username, full_name := full_name,
    password_hash_import := password_hash_import, id := idField, app_roles := app_roles }

/-- The `if status_str in ("created", "imported") ... else` chain of
`import_batch`: map a target-reported status string to the five-state enum,
anything unrecognized becoming `CREATED`. -/
def statusFromString (status_str : String) : ImportStatus :=
  if status_str = "created" ∨ status_str = "imported" then ImportStatus.CREATED
  else if status_str = "existing" then ImportStatus.EXISTING
  else if status_str = "skipped" then ImportStatus.SKIPPED
  else if status_str = "updated" then ImportStatus.UPDATED
  else if status_str = "error" then ImportStatus.ERROR
  else ImportStatus.CREATED

/-- `AuthGatewayImporter.import_batch`, with the network's behaviour for this
request passed in as `outcome`; returns the result list and the updated
`self.stats`. -/
def import_batch (outcome : BatchOutcome) (batch : List SourceUser)
    (stats : ImportStats) : List ImportResult × ImportStats :=
  match outcome with
  | .success data =>
    let stats := { stats with
      total := stats.total + (batch.length : Int),
      created := stats.created + data.imported,
      skipped := stats.skipped + data.skipped,
      updated := stats.updated + data.updated,
      errors := stats.errors + data.errors }
    let results := batch.enum.map (fun p =>
      let detail := (data.details.get? p.1).getD {}
      let status_str := detail.status.getD "created"
      let ag_id := detail.user_id
      let note := detail.reason.getD ""
      { source_id := p.2.id, ag_id := ag_id, status := statusFromString status_str,
        note := note })
    (results, stats)
  | .httpError error_msg =>
    let stats :=
      batch.foldl (fun s _ => { s with errors := s.errors + 1, total := s.total + 1 }) stats
    (batch.map (fun user =>
      { source_id := user.id, status := ImportStatus.ERROR, note := error_msg }), stats)
  | .requestError error_msg =>
    let stats :=
      batch.foldl (fun s _ => { s with errors := s.errors + 1, total := s.total + 1 }) stats
    (batch.map (fun user =>
      { source_id := user.id, status := ImportStatus.ERROR, note := error_msg }), stats)

/-- `users[i : i + n] for i in range(0, len(users), n)`; `n` is the hard-coded
`batch_size = 50`, so the `n = 0` guard (needed for termination) is dead. -/
def batchSplit {α : Type} (n : Nat) (l : List α) : List (List α) :=
  if h : l.length = 0 ∨ n = 0 then [] else l.take n :: batchSplit n (l.drop n)
termination_by l.length
decreasing_by
  push_neg at h
  simpa using Nat.sub_lt (Nat.pos_of_ne_zero h.1) (Nat.pos_of_ne_zero h.2)

/-- `AuthGatewayImporter.import_users` under its context-manager precondition.
`outcomes` gives each batch (by its submission index) the network's behaviour;
`asyncio.gather` returns the per-task results in submission order, whatever
the completion order, and the single event loop serialises the `self.stats`
updates, so the run is a fold over the batches.  In this model `import_batch`
is total, so the `isinstance(batch_result, Exception)` arm never fires. -/
def import_users (outcomes : Nat → BatchOutcome) (users : List SourceUser)
    (stats : ImportStats) : List ImportResult × ImportStats :=
  (batchSplit 50 users).enum.foldl
    (fun acc p =>
      let r := import_batch (outcomes p.1) p.2 acc.2
      (acc.1 ++ r.1, r.2))
    ([], stats)

/-! ## Verification report (`scripts/migration/lib/__init__.py`) -/

/-- `VerificationCheck`; `expected`/`actual` are the integer counts the
verifier compares. -/
structure VerificationCheck where
  name : String
  expected : Int
  actual : Int
deriving DecidableEq, Repr

/-- `__post_init__` overwrites the `passed` field with `expected == actual`,
so it is a derived attribute of every constructible check. -/
def VerificationCheck.passed (c : VerificationCheck) : Bool := c.expected == c.actual

structure Mismatch where
  user_id : String
  field : String
  expected : String
  actual : String
deriving DecidableEq, Repr

/-- `VerificationReport`; a `missing_users` entry is the `{user_id, email}`
pair passed to `add_missing`. -/
structure VerificationReport where
  checks : List VerificationCheck := []
  missing_users : List (String × String) := []
  mismatches : List Mismatch := []
deriving DecidableEq, Repr

/-- The `passed` property of `VerificationReport`. -/
def VerificationReport.passed (r : VerificationReport) : Bool :=
  r.checks.all (fun c => c.passed) && r.missing_users.isEmpty && r.mismatches.isEmpty

/-! ## Derived notions used to state the claims -/

instance {e a : Type} [DecidableEq e] [DecidableEq a] : DecidableEq (Except e a)
  | .error u, .error v =>
    if h : u = v then .isTrue (by rw [h]) else .isFalse (fun hh => h (Except.error.inj hh))
  | .error _, .ok _ => .isFalse (fun hh => Except.noConfusion hh)
  | .ok _, .error _ => .isFalse (fun hh => Except.noConfusion hh)
  | .ok u, .ok v =>
    if h : u = v then .isTrue (by rw [h]) else .isFalse (fun hh => h (Except.ok.inj hh))

/-- The distinct dedup keys of `l`, in order of first appearance. -/
def firstKeys (config : DedupConfig) (l : List SourceUser) : List String :=
  l.foldl (fun acc u =>
    match _extract_key config u with
    | none => acc
    | some k => if k ∈ acc then acc else acc ++ [k]) []

/-- The records of `l` whose dedup key is `k`. -/
def usersWith (config : DedupConfig) (k : String) (l : List SourceUser) : List SourceUser :=
  l.filter (fun u => _extract_key config u == some k)

/-- One step of the strictly-greater replacement rule restricted to key `k`. -/
def canonStep (config : DedupConfig) (k : String) :
    Option SourceUser → SourceUser → Option SourceUser
  | none, u => if _extract_key config u = some k then some u else none
  | some e, u =>
    if _extract_key config u = some k then
      if _should_replace u e then some u else some e
    else some e

/-- The record the `KEEP_LATEST` loop keeps for key `k` after consuming `l`:
the running fold of the strictly-greater replacement rule over the records
with that key. -/
def canonKL (config : DedupConfig) (k : String) (l : List SourceUser) : Option SourceUser :=
  l.foldl (canonStep config k) none

/-- Fixtures for the concrete witness runs. -/
def wCfg : DedupConfig := { key := "email", strategy := .KEEP_FIRST }

def wUserB : SourceUser := { id := "9", email := some "bob@x.com", roles := [1, 2] }

def wRoles : RolesConfig := { enabled := true, mapping := [(1, "admin")] }

def klCfg : DedupConfig := { key := "email", strategy := .KEEP_LATEST }

def kr1 : SourceUser := { id := "2", email := some "a@x.com", created_at := some 20 }

def kr2 : SourceUser := { id := "4", email := some "A@x.com ", created_at := some 40 }

def wFirst : SourceUser := { id := "1", email := some "a@x.com" }

def wDup : SourceUser := { id := "2", email := some "A@x.com" }

def wNoKey : SourceUser := { id := "3" }

/-! ## Helper lemmas -/

theorem pyTruthy_none : pyTruthy none = false := rfl

theorem pyTruthy_empty : pyTruthy (some "") = false := by decide

theorem dictFind_eq_none {m : List (String × SourceUser)} {k : String} :
    dictFind m k = none ↔ ∀ p ∈ m, p.1 ≠ k := by
  simp [dictFind, List.find?_eq_none]

theorem dictFind_mem {m : List (String × SourceUser)} {k : String} {v : SourceUser}
    (h : dictFind m k = some v) : (k, v) ∈ m := by
  simp only [dictFind, Option.map_eq_some'] at h
  obtain ⟨p, hp, hv⟩ := h
  have h1 := List.mem_of_find?_eq_some hp
  have h2 := List.find?_some hp
  simp only [beq_iff_eq] at h2
  obtain ⟨pk, pv⟩ := p
  simp only at h2 hv
  subst h2; subst hv; exact h1

theorem dictSet_of_not_mem {m : List (String × SourceUser)} {k : String}
    (u : SourceUser) (h : ∀ p ∈ m, p.1 ≠ k) : dictSet m k u = m ++ [(k, u)] := by
  have : m.any (fun p => p.1 == k) = false := by
    simp only [List.any_eq_false, beq_iff_eq]
    exact h
  simp [dictSet, this]

/-- Each step of `deduplicate` increments `total` by one and exactly one of
the other three counters by one. -/
theorem dedupStep_stats {config : DedupConfig} {st : DedupState} {user : SourceUser}
    {st' : DedupState} (h : dedupStep config st user = .ok st') :
    st'.stats.total = st.stats.total + 1 ∧
      st'.stats.unique + st'.stats.duplicates + st'.stats.skipped_no_key =
        st.stats.unique + st.stats.duplicates + st.stats.skipped_no_key + 1 := by
  simp only [dedupStep] at h
  repeat' split at h
  all_goals cases h
  all_goals exact ⟨rfl, by simp; omega⟩

theorem dedupGo_stats {config : DedupConfig} :
    ∀ {users : List SourceUser} {st st' : DedupState},
      dedupGo config st users = .ok st' →
      st.stats.unique + st.stats.duplicates + st.stats.skipped_no_key = st.stats.total →
      st'.stats.unique + st'.stats.duplicates + st'.stats.skipped_no_key = st'.stats.total := by
  intro users
  induction users with
  | nil => intro st st' h hs; simp only [dedupGo] at h; cases h; exact hs
  | cons u us ih =>
    intro st st' h hs
    simp only [dedupGo] at h
    split at h
    · cases h
    · rename_i st1 hstep
      obtain ⟨h1, h2⟩ := dedupStep_stats hstep
      exact ih h (by omega)

/-! ## Dedup stats invariant (C1) -/

/-- C1: for every run of `deduplicate` that returns (any strategy, including
`ERROR` when no duplicate aborts it), the final `DedupStats` satisfy
`unique + duplicates + skipped_no_key = total`. -/
theorem dedup_stats_sum (config : DedupConfig) (users : List SourceUser)
    (r : List SourceUser × DedupStats × List ConflictRecord)
    (h : deduplicate config users = .ok r) :
    r.2.1.unique + r.2.1.duplicates + r.2.1.skipped_no_key = r.2.1.total := by
  unfold deduplicate at h
  split at h
  · cases h; simp
  · split at h
    · cases h
    · cases h
      exact dedupGo_stats (by assumption) rfl

/-- Witness for C1: a run with one unique record, one duplicate and one
keyless record has stats `{total := 3, unique := 1, duplicates := 1,
skipped_no_key := 1}`, and `1 + 1 + 1 = 3`. -/
theorem dedup_stats_sum_witness : (1 : Nat) + 1 + 1 = 3 :=
  dedup_stats_sum wCfg [wFirst, wDup, wNoKey]
    ([wFirst], ⟨3, 1, 1, 1⟩, [⟨"a@x.com", wFirst, wDup⟩]) rfl

/-! ## Verification report (C7) -/

/-- C7: the report's `passed` flag is `false` exactly when some check has
`expected ≠ actual` or one of the two discrepancy lists is non-empty, and
`true` exactly when every check passes and both lists are empty. -/
theorem verification_passed_iff (r : VerificationReport) :
    (r.passed = false ↔
      (∃ c ∈ r.checks, c.expected ≠ c.actual) ∨
        r.missing_users ≠ [] ∨ r.mismatches ≠ []) ∧
    (r.passed = true ↔
      (∀ c ∈ r.checks, c.expected = c.actual) ∧
        r.missing_users = [] ∧ r.mismatches = []) := by
  have htrue : r.passed = true ↔
      (∀ c ∈ r.checks, c.expected = c.actual) ∧
        r.missing_users = [] ∧ r.mismatches = [] := by
    simp only [VerificationReport.passed, VerificationCheck.passed, Bool.and_eq_true,
      List.all_eq_true, beq_iff_eq, List.isEmpty_iff, and_assoc]
  refine ⟨?_, htrue⟩
  rw [← Bool.not_eq_true, htrue, not_and_or, not_and_or]
  simp only [not_forall, Classical.not_imp, exists_prop, ne_eq]

/-! ## Importer lemmas -/

theorem foldl_err_stats (batch : List SourceUser) (stats : ImportStats) :
    batch.foldl (fun s _ => { s with errors := s.errors + 1, total := s.total + 1 }) stats
      = { stats with errors := stats.errors + batch.length,
                     total := stats.total + batch.length } := by
  induction batch generalizing stats with
  | nil => simp
  | cons u us ih =>
    rw [List.foldl_cons, ih]
    simp only [List.length_cons]
    congr 1 <;> push_cast <;> ring

theorem import_batch_sourceIds (outcome : BatchOutcome) (batch : List SourceUser)
    (stats : ImportStats) :
    (import_batch outcome batch stats).1.map ImportResult.source_id
      = batch.map SourceUser.id := by
  cases outcome with
  | success data =>
    simp only [import_batch, List.map_map]
    conv_rhs => rw [← List.enum_map_snd batch]
    rw [List.map_map]
    rfl
  | httpError msg =>
    simp only [import_batch, List.map_map]
    rfl
  | requestError msg =>
    simp only [import_batch, List.map_map]
    rfl

theorem batchSplit_flatten {α : Type} (n : Nat) (hn : n ≠ 0) (l : List α) :
    (batchSplit n l).flatten = l := by
  have H : ∀ (m : Nat) (l : List α), l.length ≤ m → (batchSplit n l).flatten = l := by
    intro m
    induction m with
    | zero =>
      intro l hl
      have h0 : l.length = 0 := Nat.le_zero.mp hl
      rw [batchSplit, dif_pos (Or.inl h0)]
      simp [List.length_eq_zero.mp h0]
    | succ m ih =>
      intro l hl
      rw [batchSplit]
      by_cases h0 : l.length = 0
      · rw [dif_pos (Or.inl h0)]
        simp [List.length_eq_zero.mp h0]
      · rw [dif_neg (by push_neg; exact ⟨h0, hn⟩)]
        rw [List.flatten_cons, ih (l.drop n) ?_, List.take_append_drop]
        simp only [List.length_drop]
        omega
  exact H l.length l le_rfl

theorem import_users_sourceIds (outcomes : Nat → BatchOutcome) (users : List SourceUser)
    (stats : ImportStats) :
    (import_users outcomes users stats).1.map ImportResult.source_id
      = users.map SourceUser.id := by
  have key : ∀ (bs : List (Nat × List SourceUser)) (acc : List ImportResult × ImportStats),
      (bs.foldl (fun acc p =>
        let r := import_batch (outcomes p.1) p.2 acc.2
        (acc.1 ++ r.1, r.2)) acc).1.map ImportResult.source_id
        = acc.1.map ImportResult.source_id
          ++ (bs.map (fun p => p.2.map SourceUser.id)).flatten := by
    intro bs
    induction bs with
    | nil => intro acc; simp
    | cons b bs ih =>
      intro acc
      rw [List.foldl_cons, ih]
      simp only [List.map_cons, List.flatten_cons, List.map_append, import_batch_sourceIds]
      rw [List.append_assoc]
  unfold import_users
  rw [key]
  simp only [List.map_nil, List.nil_append]
  have henum : (batchSplit 50 users).enum.map (fun p => p.2.map SourceUser.id)
      = (batchSplit 50 users).map (fun b => b.map SourceUser.id) := by
    conv_rhs => rw [← List.enum_map_snd (batchSplit 50 users)]
    rw [List.map_map]
    rfl
  rw [henum, ← List.map_flatten, batchSplit_flatten 50 (by decide)]

/-! ## Batch failure handling (C2) -/

/-- C2: when a batch's POST fails (transport error or error-status response),
`import_batch` returns one `ERROR` result per record, all sharing the failure
note; the only stats changes are `total` and `errors`, each up by the batch
size; and no exception escapes: whatever each batch's outcome, the run still
produces a result for every record of every batch. -/
theorem import_batch_failure_spec (outcome : BatchOutcome) (msg : String)
    (batch : List SourceUser) (stats : ImportStats)
    (h : outcome = .httpError msg ∨ outcome = .requestError msg) :
    (import_batch outcome batch stats).1.length = batch.length ∧
    (∀ (i : Nat) (u : SourceUser), batch[i]? = some u →
      (import_batch outcome batch stats).1[i]? =
        some ({ source_id := u.id, ag_id := none,
                status := ImportStatus.ERROR, note := msg } : ImportResult)) ∧
    (import_batch outcome batch stats).2 =
      { stats with total := stats.total + batch.length,
                   errors := stats.errors + batch.length } ∧
    (∀ (outcomes : Nat → BatchOutcome) (users : List SourceUser) (s0 : ImportStats),
      (import_users outcomes users s0).1.length = users.length) := by
  have hrun : ∀ (outcomes : Nat → BatchOutcome) (users : List SourceUser) (s0 : ImportStats),
      (import_users outcomes users s0).1.length = users.length := by
    intro outcomes users s0
    have := congrArg List.length (import_users_sourceIds outcomes users s0)
    simpa using this
  rcases h with h | h <;> subst h <;>
    refine ⟨by simp [import_batch], ?_, by simp [import_batch, foldl_err_stats], hrun⟩ <;>
    · intro i u hu
      simp [import_batch, hu]

/-- Witness for C2: a 2-record batch failing with an HTTP 500 yields two
shared-note error results and bumps `total` and `errors` by 2, the other
counters untouched. -/
theorem import_batch_failure_witness :
    ((import_batch (.httpError "HTTP 500: boom") [wFirst, wDup] ⟨1, 2, 3, 4, 5, 6⟩).1[0]? =
        some ({ source_id := "1", ag_id := none,
                status := ImportStatus.ERROR, note := "HTTP 500: boom" } : ImportResult)) ∧
    ((import_batch (.httpError "HTTP 500: boom") [wFirst, wDup] ⟨1, 2, 3, 4, 5, 6⟩).2 =
        (⟨3, 2, 3, 4, 5, 8⟩ : ImportStats)) := by
  have h := import_batch_failure_spec (.httpError "HTTP 500: boom") "HTTP 500: boom"
    [wFirst, wDup] ⟨1, 2, 3, 4, 5, 6⟩ (Or.inl rfl)
  exact ⟨h.2.1 0 wFirst rfl, by rw [h.2.2.1]; decide⟩

/-! ## Batch success reconciliation (C6) -/

/-- C6: on a successful response the `i`-th result comes from `details[i]`
when that exists, else defaults to `CREATED` with empty note; status strings
map through `statusFromString`, unrecognized ones to `CREATED`; and a
response with no `details` reports every record as `CREATED`. -/
theorem import_batch_success_spec (data : ImportResponse) (batch : List SourceUser)
    (stats : ImportStats) :
    (import_batch (.success data) batch stats).1.length = batch.length ∧
    (∀ (i : Nat) (u : SourceUser) (d : ResponseDetail),
      batch[i]? = some u → data.details[i]? = some d →
      (import_batch (.success data) batch stats).1[i]? =
        some ({ source_id := u.id, ag_id := d.user_id,
                status := statusFromString (d.status.getD "created"),
                note := d.reason.getD "" } : ImportResult)) ∧
    (∀ (i : Nat) (u : SourceUser), batch[i]? = some u → data.details.length ≤ i →
      (import_batch (.success data) batch stats).1[i]? =
        some ({ source_id := u.id, ag_id := none,
                status := ImportStatus.CREATED, note := "" } : ImportResult)) ∧
    (∀ s : String, s ≠ "created" → s ≠ "imported" → s ≠ "existing" → s ≠ "skipped" →
      s ≠ "updated" → s ≠ "error" → statusFromString s = ImportStatus.CREATED) ∧
    (data.details = [] →
      ∀ r ∈ (import_batch (.success data) batch stats).1,
        r.status = ImportStatus.CREATED ∧ r.note = "" ∧ r.ag_id = none) := by
  refine ⟨by simp [import_batch], ?_, ?_, ?_, ?_⟩
  · intro i u d hu hd
    simp [import_batch, List.getElem?_enum, hu, hd, statusFromString]
  · intro i u hu hlen
    have hdl : data.details[i]? = none := List.getElem?_eq_none hlen
    simp [import_batch, List.getElem?_enum, hu, hdl, statusFromString]
  · intro s h1 h2 h3 h4 h5 h6
    simp [statusFromString, h1, h2, h3, h4, h5, h6]
  · intro hnil r hr
    simp only [import_batch, List.mem_map] at hr
    obtain ⟨p, hp, hr⟩ := hr
    subst hr
    simp [hnil, statusFromString]

def respW : ImportResponse :=
  { imported := 1, details := [⟨some "existing", some "X", some "already"⟩] }

/-- Witness for C6: a 2-record batch with one detail entry reconciles record 0
from the detail and defaults record 1 to `CREATED`/empty note; the status
string "weird" maps to `CREATED`. -/
theorem import_batch_success_witness :
    ((import_batch (.success respW) [wFirst, wDup] ⟨0, 0, 0, 0, 0, 0⟩).1[0]? =
        some ({ source_id := "1", ag_id := some "X",
                status := statusFromString "existing", note := "already" } : ImportResult)) ∧
    ((import_batch (.success respW) [wFirst, wDup] ⟨0, 0, 0, 0, 0, 0⟩).1[1]? =
        some ({ source_id := "2", ag_id := none,
                status := ImportStatus.CREATED, note := "" } : ImportResult)) ∧
    statusFromString "weird" = ImportStatus.CREATED := by
  have h := import_batch_success_spec respW [wFirst, wDup] ⟨0, 0, 0, 0, 0, 0⟩
  exact ⟨h.2.1 0 wFirst ⟨some "existing", some "X", some "already"⟩ rfl rfl,
    h.2.2.1 1 wDup rfl (by decide),
    h.2.2.2.1 "weird" (by decide) (by decide) (by decide) (by decide) (by decide) (by decide)⟩

/-! ## Run-level result order (C10) -/

/-- C10: with `asyncio.gather` collecting per-batch results in submission
order, `import_users` returns exactly one result per input record, and the
source ids of the results, in order, are the ids of the input records, in
order — whatever each batch's network outcome is. -/
theorem import_users_order (outcomes : Nat → BatchOutcome) (users : List SourceUser)
    (stats : ImportStats) :
    (import_users outcomes users stats).1.length = users.length ∧
    (import_users outcomes users stats).1.map ImportResult.source_id
      = users.map SourceUser.id := by
  have h := import_users_sourceIds outcomes users stats
  refine ⟨?_, h⟩
  have := congrArg List.length h
  simpa using this

/-! ## Key absence and skipping (C4) -/

/-- C4 as stated is false on the code: under the single-field `email`
selector a whitespace-only email is truthy, so `_extract_key` returns the
empty string — which is not `None` — and the record is counted unique and
kept in the output instead of incrementing `skipped_no_key`. -/
theorem whitespace_key_counterexample :
    _extract_key { key := "email", strategy := DedupStrategy.KEEP_FIRST }
        { id := "w", email := some "   " } = some "" ∧
    deduplicate { key := "email", strategy := DedupStrategy.KEEP_FIRST }
        [{ id := "w", email := some "   " }]
      = .ok ([{ id := "w", email := some "   " }],
             { total := 1, unique := 1, duplicates := 0, skipped_no_key := 0 }, []) := by
  decide

/-- C4 (amended): a record whose computed key is `None` increments
`skipped_no_key`, is dropped from the output and produces no conflict; but a
key field yields `None` only when it is `None` or the empty string *before*
trimming: a truthy field is trimmed (and lowercased) to form the key, so a
whitespace-only field under a single-field selector yields the empty-string
key and counts as present, while under the combined selectors a field whose
trimmed value is empty is falsy and falls through to the alternative. -/
theorem extract_key_skip_spec (config : DedupConfig) (st : DedupState) (user : SourceUser) :
    (_extract_key config user = none →
      dedupStep config st user =
        .ok { st with stats := ⟨st.stats.total + 1, st.stats.unique,
                                st.stats.duplicates, st.stats.skipped_no_key + 1⟩ }) ∧
    (config.key = "email" →
      (_extract_key config user = none ↔ pyTruthy user.email = false)) ∧
    (config.key = "email" → ∀ s : String, user.email = some s →
      pyTruthy user.email = true →
      _extract_key config user = some (pyStrip (pyLower s))) ∧
    (config.key = "email_or_phone" → pyTruthy user.email = true →
      pyStrip (pyLower (user.email.getD "")) = "" → user.phone = none →
      _extract_key config user = none) := by
  refine ⟨?_, ?_, ?_, ?_⟩
  · intro h
    simp only [dedupStep, h]
  · intro hk
    rcases hu : user.email with _ | s
    · simp [_extract_key, hk, hu, pyTruthy]
    · cases hs : s.data.isEmpty <;> simp [_extract_key, hk, hu, pyTruthy, hs]
  · intro hk s hu htr
    rw [hu] at htr
    simp [_extract_key, hk, hu, htr]
  · intro hk he htrim hp
    simp [_extract_key, hk, he, hp, htrim, pyOr, pyTruthy_none, pyTruthy_empty]

/-- Witness for the amended C4: a record with no key field is skipped, and a
whitespace-only email under the combined selector with no phone is also
skipped there. -/
theorem extract_key_skip_witness :
    dedupStep wCfg initState wNoKey =
      .ok { initState with
            stats := ⟨initState.stats.total + 1, initState.stats.unique,
                      initState.stats.duplicates, initState.stats.skipped_no_key + 1⟩ } ∧
    _extract_key { key := "email_or_phone", strategy := DedupStrategy.KEEP_FIRST }
        { id := "w", email := some "   " } = none := by
  refine ⟨(extract_key_skip_spec wCfg initState wNoKey).1 rfl, ?_⟩
  exact (extract_key_skip_spec { key := "email_or_phone", strategy := DedupStrategy.KEEP_FIRST }
    initState { id := "w", email := some "   " }).2.2.2 rfl (by decide) (by decide) rfl

/-! ## Import entry construction (C8) -/

/-- C8 as stated is false on the code: the username fallback for a record
with neither username nor email is the phone with its leading `+` stripped,
which keeps every non-digit character, not "the phone digits". -/
theorem phone_username_counterexample :
    (_build_import_entry {} none { id := "9", phone := some "+1-2" }).username
      = some "1-2" ∧
    String.mk (("+1-2" : String).data.filter Char.isDigit) ≠ "1-2" := by
  decide

/-- C8 (amended): the entry serializes an optional field exactly when it is
truthy, verbatim; a falsy username is synthesized from the email local-part
(the text before the first `@`) when that is non-empty, else from the phone
with leading `+` characters stripped (not the phone digits); role ids are
translated through the static mapping and unmapped ids are dropped
silently. -/
theorem build_import_entry_spec (pc : PasswordConfig) (rc : RolesConfig) (u : SourceUser) :
    ((_build_import_entry pc (some rc) u).email = none ↔ pyTruthy u.email = false) ∧
    (pyTruthy u.email = true → (_build_import_entry pc (some rc) u).email = u.email) ∧
    ((_build_import_entry pc (some rc) u).phone = none ↔ pyTruthy u.phone = false) ∧
    (pyTruthy u.phone = true → (_build_import_entry pc (some rc) u).phone = u.phone) ∧
    ((_build_import_entry pc (some rc) u).full_name = none ↔ pyTruthy u.full_name = false) ∧
    (pyTruthy u.full_name = true →
      (_build_import_entry pc (some rc) u).full_name = u.full_name) ∧
    ((_build_import_entry pc (some rc) u).id = none ↔ pyTruthy (some u.id) = false) ∧
    (pyTruthy (some u.id) = true → (_build_import_entry pc (some rc) u).id = some u.id) ∧
    (pyTruthy u.username = true →
      (_build_import_entry pc (some rc) u).username = u.username) ∧
    (pyTruthy u.username = false → pyTruthy u.email = true →
      pyTruthy (some (emailLocalPart (u.email.getD ""))) = true →
      (_build_import_entry pc (some rc) u).username
        = some (emailLocalPart (u.email.getD ""))) ∧
    (pyTruthy u.username = false →
      (pyTruthy u.email = false ∨ pyTruthy (some (emailLocalPart (u.email.getD ""))) = false) →
      pyTruthy u.phone = true →
      pyTruthy (some (String.mk ((u.phone.getD "").data.dropWhile (· == '+')))) = true →
      (_build_import_entry pc (some rc) u).username
        = some (String.mk ((u.phone.getD "").data.dropWhile (· == '+')))) ∧
    (rc.enabled = true → ∀ names : List String,
      ((_build_import_entry pc (some rc) u).app_roles = some names ↔
        (names = u.roles.filterMap (fun r => mapLookup rc.mapping r) ∧ names ≠ []))) := by
  refine ⟨?_, ?_, ?_, ?_, ?_, ?_, ?_, ?_, ?_, ?_, ?_, ?_⟩
  · rcases hu : u.email with _ | s
    · simp [_build_import_entry, hu, pyTruthy]
    · cases hs : s.data.isEmpty <;> simp [_build_import_entry, hu, pyTruthy, hs]
  · intro h; simp [_build_import_entry, h]
  · rcases hu : u.phone with _ | s
    · simp [_build_import_entry, hu, pyTruthy]
    · cases hs : s.data.isEmpty <;> simp [_build_import_entry, hu, pyTruthy, hs]
  · intro h; simp [_build_import_entry, h]
  · rcases hu : u.full_name with _ | s
    · simp [_build_import_entry, hu, pyTruthy]
    · cases hs : s.data.isEmpty <;> simp [_build_import_entry, hu, pyTruthy, hs]
  · intro h; simp [_build_import_entry, h]
  · cases hs : pyTruthy (some u.id) <;> simp [_build_import_entry, hs]
  · intro h; simp [_build_import_entry, h]
  · intro h; simp [_build_import_entry, h]
  · intro h0 h1 h2
    simp [_build_import_entry, h0, h1, h2]
  · intro h0 hc hp hs
    rcases hc with hc | hc
    · simp [_build_import_entry, h0, hc, hp, hs]
    · cases hem : pyTruthy u.email <;> simp [_build_import_entry, h0, hc, hem, hp, hs]
  · intro hen names
    simp only [_build_import_entry, hen, Bool.true_and]
    by_cases hroles : u.roles = []
    · simp [hroles]
    · by_cases hf : u.roles.filterMap (fun r => mapLookup rc.mapping r) = []
      · simp [hroles, hf]
      · rw [if_pos (by simp [hroles]), if_neg (by simp [hf]), Option.some.injEq]
        constructor
        · intro h
          subst h
          exact ⟨rfl, hf⟩
        · rintro ⟨h1, -⟩
          exact h1.symm

/-- Witness for the amended C8: a record with only an email gets the email
local-part as username, and its mapped role survives while the unmapped one
is dropped. -/
theorem build_import_entry_witness :
    (_build_import_entry {} (some wRoles) wUserB).username = some "bob" ∧
    (_build_import_entry {} (some wRoles) wUserB).app_roles = some ["admin"] := by
  have h := build_import_entry_spec {} wRoles wUserB
  constructor
  · have hu := h.2.2.2.2.2.2.2.2.2.1 rfl (by decide) (by decide)
    rw [hu]; decide
  · exact (h.2.2.2.2.2.2.2.2.2.2.2 rfl ["admin"]).mpr (by decide)

/-! ## ERROR strategy abort behaviour (C5) -/

theorem mem_dictSet {m : List (String × SourceUser)} {k : String} {u : SourceUser}
    {p : String × SourceUser} (h : p ∈ dictSet m k u) : p ∈ m ∨ p = (k, u) := by
  unfold dictSet at h
  split at h
  · rcases List.mem_map.mp h with ⟨q, hq, hpq⟩
    by_cases hk : q.1 == k
    · right; rw [if_pos hk] at hpq; exact hpq.symm
    · left; rw [if_neg hk] at hpq; exact hpq ▸ hq
  · rcases List.mem_append.mp h with h | h
    · exact Or.inl h
    · right; simpa using h

theorem dictFind_ne_none_of_mem {m : List (String × SourceUser)} {k : String}
    {v : SourceUser} (h : (k, v) ∈ m) : dictFind m k ≠ none := by
  intro hnone
  exact (dictFind_eq_none.mp hnone _ h) rfl

theorem dictFind_append_single_none {m : List (String × SourceUser)} {k k0 : String}
    {u : SourceUser} :
    dictFind (m ++ [(k0, u)]) k = none ↔ dictFind m k = none ∧ k0 ≠ k := by
  simp only [dictFind_eq_none, List.mem_append, List.mem_singleton, Prod.forall,
    Prod.mk.injEq]
  constructor
  · intro h
    exact ⟨fun a b hm => h a b (Or.inl hm), fun hk => h k0 u (Or.inr ⟨rfl, rfl⟩) hk⟩
  · rintro ⟨h1, h2⟩ a b (hm | ⟨rfl, rfl⟩)
    · exact h1 a b hm
    · exact h2

/-- A step can only raise under the `ERROR` strategy, at a record whose key is
already canonical, and the error carries that key with both ids. -/
theorem dedupStep_error_spec {config : DedupConfig} {st : DedupState} {user : SourceUser}
    {e : DuplicateUserError} (h : dedupStep config st user = .error e) :
    config.strategy = DedupStrategy.ERROR ∧
    ∃ key existing, _extract_key config user = some key ∧
      dictFind st.seen key = some existing ∧ e = ⟨key, existing.id, user.id⟩ := by
  simp only [dedupStep] at h
  repeat' split at h
  all_goals cases h
  exact ⟨by assumption, _, _, by assumption, by assumption, rfl⟩

/-- A successful step only grows `seen` by the record's own key/record pair. -/
theorem dedupStep_seen_grow {config : DedupConfig} {st : DedupState} {user : SourceUser}
    {st' : DedupState} (h : dedupStep config st user = .ok st') :
    ∀ k u', (k, u') ∈ st'.seen →
      (k, u') ∈ st.seen ∨ (_extract_key config user = some k ∧ u' = user) := by
  simp only [dedupStep] at h
  repeat' split at h
  all_goals cases h
  all_goals intro k u' hmem
  all_goals simp only at hmem
  all_goals first
    | exact Or.inl hmem
    | exact (mem_dictSet hmem).elim Or.inl (fun hp => Or.inr (by
        injection hp with h1 h2
        subst h1
        subst h2
        exact ⟨by assumption, rfl⟩))

/-- Under the `ERROR` strategy a successful step either skips a keyless record
or appends a brand-new key. -/
theorem dedupStep_ok_ERROR {config : DedupConfig} {st : DedupState} {user : SourceUser}
    {st' : DedupState} (hE : config.strategy = DedupStrategy.ERROR)
    (h : dedupStep config st user = .ok st') :
    (_extract_key config user = none ∧ st'.seen = st.seen) ∨
    (∃ k0, _extract_key config user = some k0 ∧ dictFind st.seen k0 = none ∧
      st'.seen = st.seen ++ [(k0, user)]) := by
  simp only [dedupStep] at h
  repeat' split at h
  all_goals cases h
  all_goals first
    | (left; exact ⟨by assumption, rfl⟩)
    | (exact absurd hE (by assumption))
    | (right
       refine ⟨_, by assumption, by assumption, ?_⟩
       exact dictSet_of_not_mem _ (dictFind_eq_none.mp (by assumption)))

/-- A step never raises when the strategy is not `ERROR`. -/
theorem dedupStep_ok_of_ne_error {config : DedupConfig} (h : config.strategy ≠ DedupStrategy.ERROR)
    (st : DedupState) (user : SourceUser) : ∃ st', dedupStep config st user = .ok st' := by
  simp only [dedupStep]
  repeat' split
  all_goals first
    | exact ⟨_, rfl⟩
    | exact absurd (by assumption) h

/-- Soundness of a raised error: it implies the `ERROR` strategy and exhibits
an earlier and a later record sharing the error's key, whose ids the error
carries. -/
theorem dedupGo_error_sound {config : DedupConfig} :
    ∀ {l : List SourceUser} (p : List SourceUser) {st : DedupState} {e : DuplicateUserError},
      dedupGo config st l = .error e →
      (∀ k u, (k, u) ∈ st.seen →
        _extract_key config u = some k ∧ ∃ i : Nat, p[i]? = some u) →
      config.strategy = DedupStrategy.ERROR ∧
      ∃ (i j : Nat) (ui uj : SourceUser), i < j ∧
        (p ++ l)[i]? = some ui ∧ (p ++ l)[j]? = some uj ∧
        _extract_key config ui = some e.key ∧ _extract_key config uj = some e.key ∧
        e.existing_id = ui.id ∧ e.duplicate_id = uj.id := by
  intro l
  induction l with
  | nil => intro p st e h _; cases h
  | cons u us ih =>
    intro p st e h hinv
    simp only [dedupGo] at h
    split at h
    · rename_i e0 hstep
      cases h
      obtain ⟨hE, key, existing, hkey, hfind, he⟩ := dedupStep_error_spec hstep
      obtain ⟨hkeyex, i, hi⟩ := hinv key existing (dictFind_mem hfind)
      have hilt : i < p.length := by
        rcases List.getElem?_eq_some_iff.mp hi with ⟨hlt, _⟩
        exact hlt
      refine ⟨hE, i, p.length, existing, u, hilt, ?_, ?_, ?_, ?_, ?_, ?_⟩
      · rw [List.getElem?_append_left hilt]; exact hi
      · rw [List.getElem?_append_right le_rfl]; simp
      · rw [he]; exact hkeyex
      · rw [he]; exact hkey
      · rw [he]
      · rw [he]
    · rename_i st1 hstep
      have hinv' : ∀ k u', (k, u') ∈ st1.seen →
          _extract_key config u' = some k ∧ ∃ i : Nat, (p ++ [u])[i]? = some u' := by
        intro k u' hmem
        rcases dedupStep_seen_grow hstep k u' hmem with hold | ⟨hkey, rfl⟩
        · obtain ⟨hx, i, hi⟩ := hinv k u' hold
          have hilt : i < p.length := by
            rcases List.getElem?_eq_some_iff.mp hi with ⟨hlt, _⟩
            exact hlt
          exact ⟨hx, i, by rw [List.getElem?_append_left hilt]; exact hi⟩
        · exact ⟨hkey, p.length, List.getElem?_concat_length _ _⟩
      have := ih (p ++ [u]) h hinv'
      rwa [List.append_assoc, List.singleton_append] at this

/-- Completeness under `ERROR`: if the whole loop succeeds, every key that
appears does so exactly once (no earlier record shares the key of a later
one, nor was it pre-seeded in `seen`). -/
theorem dedupGo_ok_nodup {config : DedupConfig} (hE : config.strategy = DedupStrategy.ERROR) :
    ∀ {l : List SourceUser} {st st' : DedupState},
      dedupGo config st l = .ok st' →
      ∀ (j : Nat) (uj : SourceUser) (k : String),
        l[j]? = some uj → _extract_key config uj = some k →
        dictFind st.seen k = none ∧
        ∀ i, i < j → ∀ ui, l[i]? = some ui → _extract_key config ui ≠ some k := by
  intro l
  induction l with
  | nil => intro st st' _ j uj k hj _; simp at hj
  | cons u us ih =>
    intro st st' h j uj k hj hk
    simp only [dedupGo] at h
    split at h
    · cases h
    · rename_i st1 hstep
      rcases dedupStep_ok_ERROR hE hstep with ⟨hnone, hseen⟩ | ⟨k0, hk0, hfind0, hseen⟩
      · cases j with
        | zero =>
          rw [List.getElem?_cons_zero] at hj
          obtain rfl := Option.some.inj hj
          rw [hk] at hnone
          cases hnone
        | succ j =>
          rw [List.getElem?_cons_succ] at hj
          obtain ⟨hfind, hrest⟩ := ih h j uj k hj hk
          rw [hseen] at hfind
          refine ⟨hfind, ?_⟩
          intro i hij ui hi hkey
          cases i with
          | zero =>
            rw [List.getElem?_cons_zero] at hi
            obtain rfl := Option.some.inj hi
            rw [hkey] at hnone
            cases hnone
          | succ i =>
            rw [List.getElem?_cons_succ] at hi
            exact hrest i (by omega) ui hi hkey
      · cases j with
        | zero =>
          rw [List.getElem?_cons_zero] at hj
          obtain rfl := Option.some.inj hj
          rw [hk] at hk0
          obtain rfl := Option.some.inj hk0
          exact ⟨hfind0, by intro i hi; omega⟩
        | succ j =>
          rw [List.getElem?_cons_succ] at hj
          obtain ⟨hfind, hrest⟩ := ih h j uj k hj hk
          rw [hseen] at hfind
          obtain ⟨hfindst, hkne⟩ := dictFind_append_single_none.mp hfind
          refine ⟨hfindst, ?_⟩
          intro i hij ui hi hkey
          cases i with
          | zero =>
            rw [List.getElem?_cons_zero] at hi
            obtain rfl := Option.some.inj hi
            rw [hkey] at hk0
            exact hkne (Option.some.inj hk0).symm
          | succ i =>
            rw [List.getElem?_cons_succ] at hi
            exact hrest i (by omega) ui hi hkey

theorem dedupGo_ok_of_ne_error {config : DedupConfig}
    (h : config.strategy ≠ DedupStrategy.ERROR) :
    ∀ (l : List SourceUser) (st : DedupState), ∃ st', dedupGo config st l = .ok st' := by
  intro l
  induction l with
  | nil => intro st; exact ⟨st, rfl⟩
  | cons u us ih =>
    intro st
    obtain ⟨st1, hstep⟩ := dedupStep_ok_of_ne_error h st u
    obtain ⟨st', hgo⟩ := ih st1
    exact ⟨st', by simp only [dedupGo, hstep, hgo]⟩

/-- C5: `deduplicate` raises exactly under the `ERROR` strategy on an input
with a duplicated key; the raised `DuplicateUserError` carries the offending
key and the ids of an earlier and a later record sharing it (and the `Except`
error branch carries no output); under every other strategy the run always
returns. -/
theorem dedup_error_strategy (config : DedupConfig) (users : List SourceUser) :
    (∀ e : DuplicateUserError, deduplicate config users = .error e →
      config.strategy = DedupStrategy.ERROR ∧
      ∃ (i j : Nat) (ui uj : SourceUser), i < j ∧
        users[i]? = some ui ∧ users[j]? = some uj ∧
        _extract_key config ui = some e.key ∧ _extract_key config uj = some e.key ∧
        e.existing_id = ui.id ∧ e.duplicate_id = uj.id) ∧
    (config.strategy = DedupStrategy.ERROR →
      (∃ (i j : Nat) (ui uj : SourceUser) (k : String), i < j ∧
        users[i]? = some ui ∧ users[j]? = some uj ∧
        _extract_key config ui = some k ∧ _extract_key config uj = some k) →
      ∃ e, deduplicate config users = .error e) ∧
    (config.strategy ≠ DedupStrategy.ERROR →
      ∃ r, deduplicate config users = .ok r) := by
  refine ⟨?_, ?_, ?_⟩
  · intro e h
    unfold deduplicate at h
    split at h
    · cases h
    · split at h
      · cases h
        rename_i hgo
        have := dedupGo_error_sound [] hgo (by intro k u hmem; simp [initState] at hmem)
        simpa using this
      · cases h
  · intro hE hdup
    have hNONE : ¬config.strategy = DedupStrategy.NONE := by rw [hE]; intro hc; cases hc
    cases hgo : dedupGo config initState users with
    | error e => exact ⟨e, by unfold deduplicate; rw [if_neg hNONE, hgo]⟩
    | ok st =>
      exfalso
      obtain ⟨i, j, ui, uj, k, hij, hi, hj, hki, hkj⟩ := hdup
      obtain ⟨-, hrest⟩ := dedupGo_ok_nodup hE hgo j uj k hj hkj
      exact hrest i hij ui hi hki
  · intro hne
    by_cases hN : config.strategy = DedupStrategy.NONE
    · exact ⟨_, by unfold deduplicate; rw [if_pos hN]⟩
    · obtain ⟨st', hgo⟩ := dedupGo_ok_of_ne_error hne users initState
      exact ⟨_, by unfold deduplicate; rw [if_neg hN, hgo]⟩

/-- Witness for C5: the run on two records sharing the email key under the
`ERROR` strategy raises, and the `KEEP_FIRST` run on the same input
returns. -/
theorem dedup_error_strategy_witness :
    (∃ e, deduplicate { key := "email", strategy := DedupStrategy.ERROR }
            [wFirst, wDup] = .error e) ∧
    (∃ r, deduplicate wCfg [wFirst, wDup] = .ok r) := by
  constructor
  · exact (dedup_error_strategy { key := "email", strategy := DedupStrategy.ERROR }
      [wFirst, wDup]).2.1 rfl
      ⟨0, 1, wFirst, wDup, "a@x.com", by decide, rfl, rfl, by decide, by decide⟩
  · exact (dedup_error_strategy wCfg [wFirst, wDup]).2.2 (by decide)

/-! ## KEEP_LATEST canonical records (C3) -/

theorem firstKeys_append_one (config : DedupConfig) (p : List SourceUser) (u : SourceUser) :
    firstKeys config (p ++ [u]) =
      match _extract_key config u with
      | none => firstKeys config p
      | some k =>
        if k ∈ firstKeys config p then firstKeys config p else firstKeys config p ++ [k] := by
  simp only [firstKeys, List.foldl_append, List.foldl_cons, List.foldl_nil]

theorem firstKeys_append_none {config : DedupConfig} {u : SourceUser}
    (h : _extract_key config u = none) (p : List SourceUser) :
    firstKeys config (p ++ [u]) = firstKeys config p := by
  rw [firstKeys_append_one, h]

theorem firstKeys_append_mem {config : DedupConfig} {u : SourceUser} {k : String}
    (h : _extract_key config u = some k) (p : List SourceUser)
    (hmem : k ∈ firstKeys config p) :
    firstKeys config (p ++ [u]) = firstKeys config p := by
  rw [firstKeys_append_one, h]
  exact if_pos hmem

theorem firstKeys_append_new {config : DedupConfig} {u : SourceUser} {k : String}
    (h : _extract_key config u = some k) (p : List SourceUser)
    (hmem : k ∉ firstKeys config p) :
    firstKeys config (p ++ [u]) = firstKeys config p ++ [k] := by
  rw [firstKeys_append_one, h]
  exact if_neg hmem

theorem canonKL_append_one (config : DedupConfig) (k : String) (p : List SourceUser)
    (u : SourceUser) :
    canonKL config k (p ++ [u]) = canonStep config k (canonKL config k p) u := by
  simp only [canonKL, List.foldl_append, List.foldl_cons, List.foldl_nil]

theorem canonKL_append_other {config : DedupConfig} {u : SourceUser} {k : String}
    (h : _extract_key config u ≠ some k) (p : List SourceUser) :
    canonKL config k (p ++ [u]) = canonKL config k p := by
  rw [canonKL_append_one]
  cases hc : canonKL config k p <;> simp [canonStep, h]

theorem canonKL_append_fresh {config : DedupConfig} {u : SourceUser} {k : String}
    (h : _extract_key config u = some k) (p : List SourceUser)
    (hc : canonKL config k p = none) :
    canonKL config k (p ++ [u]) = some u := by
  rw [canonKL_append_one, hc]
  simp [canonStep, h]

theorem canonKL_append_dup {config : DedupConfig} {u e : SourceUser} {k : String}
    (h : _extract_key config u = some k) (p : List SourceUser)
    (hc : canonKL config k p = some e) :
    canonKL config k (p ++ [u])
      = some (if _should_replace u e then u else e) := by
  rw [canonKL_append_one, hc]
  simp only [canonStep, if_pos h]
  rw [apply_ite Option.some]

/-- The canonical record for key `k` carries key `k`. -/
theorem canonKL_key {config : DedupConfig} {k : String} :
    ∀ {l : List SourceUser} {acc : Option SourceUser},
      (∀ c, acc = some c → _extract_key config c = some k) →
      ∀ c, l.foldl (canonStep config k) acc = some c → _extract_key config c = some k := by
  intro l
  induction l with
  | nil => intro acc hacc c h; exact hacc c h
  | cons u us ih =>
    intro acc hacc c h
    rw [List.foldl_cons] at h
    refine ih ?_ c h
    intro c' hc'
    cases acc with
    | none =>
      simp only [canonStep] at hc'
      split at hc'
      · cases hc'; assumption
      · cases hc'
    | some e =>
      simp only [canonStep] at hc'
      split at hc'
      · split at hc'
        · cases hc'; assumption
        · cases hc'; exact hacc _ rfl
      · cases hc'; exact hacc _ rfl

theorem canonKL_eq_none {config : DedupConfig} {k : String} :
    ∀ {l : List SourceUser} {acc : Option SourceUser},
      l.foldl (canonStep config k) acc = none ↔
        acc = none ∧ ∀ u ∈ l, _extract_key config u ≠ some k := by
  intro l
  induction l with
  | nil => intro acc; simp
  | cons u us ih =>
    intro acc
    rw [List.foldl_cons, ih]
    constructor
    · rintro ⟨hstep, hrest⟩
      cases acc with
      | none =>
        simp only [canonStep] at hstep
        split at hstep
        · cases hstep
        · refine ⟨rfl, ?_⟩
          intro u' hu'
          rcases List.mem_cons.mp hu' with rfl | hmem
          · assumption
          · exact hrest u' hmem
      | some e =>
        simp only [canonStep] at hstep
        split at hstep
        · split at hstep <;> cases hstep
        · cases hstep
    · rintro ⟨hacc, hall⟩
      have hu : _extract_key config u ≠ some k := hall u (List.mem_cons_self u us)
      subst hacc
      refine ⟨?_, fun u' hm => hall u' (List.mem_cons_of_mem u hm)⟩
      simp [canonStep, hu]

theorem firstKeys_nodup (config : DedupConfig) (l : List SourceUser) :
    (firstKeys config l).Nodup := by
  induction l using List.reverseRecOn with
  | nil => simp [firstKeys]
  | append_singleton p u ih =>
    cases hk : _extract_key config u with
    | none => rw [firstKeys_append_none hk]; exact ih
    | some k =>
      by_cases hmem : k ∈ firstKeys config p
      · rw [firstKeys_append_mem hk p hmem]; exact ih
      · rw [firstKeys_append_new hk p hmem, List.nodup_append]
        refine ⟨ih, List.nodup_singleton k, ?_⟩
        intro x hx hxk
        rw [List.mem_singleton] at hxk
        subst hxk
        exact hmem hx

theorem mem_unique_of_nodup_keys :
    ∀ {m : List (String × SourceUser)}, (m.map Prod.fst).Nodup →
      ∀ {k : String} {a b : SourceUser}, (k, a) ∈ m → (k, b) ∈ m → a = b := by
  intro m
  induction m with
  | nil => intro _ k a b ha _; cases ha
  | cons q m ih =>
    intro hnd k a b ha hb
    simp only [List.map_cons, List.nodup_cons] at hnd
    have hkey : ∀ {c : SourceUser}, (k, c) ∈ m → q.1 ≠ k := by
      intro c hc hq
      exact hnd.1 (by rw [hq]; exact List.mem_map.mpr ⟨(k, c), hc, rfl⟩)
    rcases List.mem_cons.mp ha with haq | ham
    · rcases List.mem_cons.mp hb with hbq | hbm
      · exact congrArg Prod.snd (haq.trans hbq.symm)
      · exact absurd (show q.1 = k by rw [← haq]) (hkey hbm)
    · rcases List.mem_cons.mp hb with hbq | hbm
      · exact absurd (show q.1 = k by rw [← hbq]) (hkey ham)
      · exact ih hnd.2 ham hbm

theorem usersWith_append_one (config : DedupConfig) (k : String) (p : List SourceUser)
    (u : SourceUser) :
    usersWith config k (p ++ [u]) =
      usersWith config k p ++ if _extract_key config u = some k then [u] else [] := by
  simp only [usersWith, List.filter_append, List.filter_cons, List.filter_nil, beq_iff_eq]

theorem mem_usersWith {config : DedupConfig} {k : String} {l : List SourceUser}
    {r : SourceUser} : r ∈ usersWith config k l ↔ r ∈ l ∧ _extract_key config r = some k := by
  simp [usersWith, List.mem_filter]

theorem should_replace_iff (n e : SourceUser) :
    _should_replace n e = true ↔
      ∃ tn : Int, n.created_at = some tn ∧
        (e.created_at = none ∨ ∃ te : Int, e.created_at = some te ∧ te < tn) := by
  cases hn : n.created_at <;> cases he : e.created_at <;> simp [_should_replace, hn, he]

theorem should_replace_false {n e : SourceUser} (h : _should_replace n e = false) :
    n.created_at = none ∨
      ∃ tn te : Int, n.created_at = some tn ∧ e.created_at = some te ∧ tn ≤ te := by
  cases hn : n.created_at <;> cases he : e.created_at <;>
    simp only [_should_replace, hn, he, decide_eq_false_iff_not, not_lt,
      Option.some.injEq, reduceCtorEq, false_and, exists_false, or_false, false_or] at h ⊢
  exact ⟨_, _, rfl, rfl, h⟩

/-- The canonical record for a key is one of the records with that key, is the
first of them when none carries a timestamp, bounds every timestamp among
them from above, and is timestampless only when they all are. -/
theorem canonKL_max {config : DedupConfig} {k : String} :
    ∀ {p : List SourceUser} {c : SourceUser}, canonKL config k p = some c →
      c ∈ usersWith config k p ∧
      ((∀ r ∈ usersWith config k p, r.created_at = none) →
        (usersWith config k p).head? = some c) ∧
      (∀ t : Int, c.created_at = some t →
        ∀ r ∈ usersWith config k p, ∀ t' : Int, r.created_at = some t' → t' ≤ t) ∧
      (c.created_at = none → ∀ r ∈ usersWith config k p, r.created_at = none) := by
  intro p
  induction p using List.reverseRecOn with
  | nil => intro c hc; simp [canonKL] at hc
  | append_singleton l a ih =>
    intro c hc
    by_cases ha : _extract_key config a = some k
    case neg =>
      rw [canonKL_append_other ha] at hc
      rw [usersWith_append_one, if_neg ha, List.append_nil]
      exact ih hc
    case pos =>
      rw [usersWith_append_one, if_pos ha]
      cases hcl : canonKL config k l with
      | none =>
        rw [canonKL_append_fresh ha l hcl] at hc
        cases hc
        have hempty : usersWith config k l = [] := by
          have hcl' : l.foldl (canonStep config k) none = none := hcl
          rcases canonKL_eq_none.mp hcl' with ⟨-, hall⟩
          simp only [usersWith, List.filter_eq_nil_iff, beq_iff_eq]
          exact hall
        rw [hempty, List.nil_append]
        refine ⟨List.mem_singleton.mpr rfl, fun _ => rfl, ?_, ?_⟩
        · intro t ht r hr t' ht'
          rw [List.mem_singleton] at hr
          subst hr
          rw [ht] at ht'
          cases ht'
          exact le_rfl
        · intro hnone r hr
          rw [List.mem_singleton] at hr
          subst hr
          exact hnone
      | some e =>
        rw [canonKL_append_dup ha l hcl] at hc
        obtain ⟨hmem_e, hhead_e, hub_e, hnone_e⟩ := ih hcl
        cases hrep : _should_replace a e with
        | true =>
          rw [if_pos (by rw [hrep])] at hc
          cases hc
          obtain ⟨ta, hta, hcase⟩ := (should_replace_iff a e).mp hrep
          refine ⟨List.mem_append_right _ (List.mem_singleton.mpr rfl), ?_, ?_, ?_⟩
          · intro hall
            exact absurd (hall a (List.mem_append_right _ (List.mem_singleton.mpr rfl)))
              (by rw [hta]; intro hcon; cases hcon)
          · intro t ht r hr t' ht'
            rw [hta] at ht
            cases ht
            rcases List.mem_append.mp hr with hrl | hra
            · rcases hcase with hen | ⟨te, hte, hlt⟩
              · rw [hnone_e hen r hrl] at ht'
                cases ht'
              · exact le_of_lt (lt_of_le_of_lt (hub_e te hte r hrl t' ht') hlt)
            · rw [List.mem_singleton] at hra
              subst hra
              rw [hta] at ht'
              cases ht'
              exact le_rfl
          · intro hnone
            rw [hta] at hnone
            cases hnone
        | false =>
          rw [if_neg (by rw [hrep]; intro hcon; cases hcon)] at hc
          cases hc
          have hne : usersWith config k l ≠ [] := List.ne_nil_of_mem hmem_e
          refine ⟨List.mem_append_left _ hmem_e, ?_, ?_, ?_⟩
          · intro hall
            have hl : ∀ r ∈ usersWith config k l, r.created_at = none :=
              fun r hr => hall r (List.mem_append_left _ hr)
            rw [List.head?_append, hhead_e hl]
            rfl
          · intro t ht r hr t' ht'
            rcases List.mem_append.mp hr with hrl | hra
            · exact hub_e t ht r hrl t' ht'
            · rw [List.mem_singleton] at hra
              subst hra
              rcases should_replace_false hrep with hna | ⟨ta, te, hta, hte, hle⟩
              · rw [hna] at ht'
                cases ht'
              · rw [hta] at ht'
                cases ht'
                rw [hte] at ht
                cases ht
                exact hle
          · intro hnone r hr
            rcases List.mem_append.mp hr with hrl | hra
            · exact hnone_e hnone r hrl
            · rw [List.mem_singleton] at hra
              subst hra
              rcases should_replace_false hrep with hna | ⟨ta, te, hta, hte, hle⟩
              · exact hna
              · rw [hte] at hnone
                cases hnone

theorem replaceFirst_of_not_mem {old new : SourceUser} :
    ∀ {l : List SourceUser}, old ∉ l → replaceFirst l old new = l := by
  intro l
  induction l with
  | nil => intro _; rfl
  | cons x xs ih =>
    intro h
    have hx : x ≠ old := fun hc => h (hc ▸ List.mem_cons_self x xs)
    simp only [replaceFirst, if_neg hx]
    rw [ih (fun hc => h (List.mem_cons_of_mem x hc))]

/-- In a keyed association list with distinct keys, replacing the first
occurrence of the value stored at `k0` coincides with rewriting the entry at
`k0`. -/
theorem replaceFirst_map_snd :
    ∀ {m : List (String × SourceUser)} {k0 : String} {ex u : SourceUser},
      (m.map Prod.fst).Nodup →
      (∀ q ∈ m, q.2 = ex ↔ q.1 = k0) →
      replaceFirst (m.map Prod.snd) ex u = m.map (fun q => if q.1 == k0 then u else q.2) := by
  intro m
  induction m with
  | nil => intro k0 ex u _ _; rfl
  | cons q m ih =>
    intro k0 ex u hnd hal
    simp only [List.map_cons, List.nodup_cons] at hnd
    have hiff := hal q (List.mem_cons_self q m)
    by_cases hq : q.1 = k0
    · have hq2 : q.2 = ex := hiff.mpr hq
      simp only [List.map_cons, replaceFirst, if_pos hq2, beq_iff_eq, if_pos hq]
      congr 1
      refine (List.map_congr_left ?_).symm
      intro q' hq'
      have : q'.1 ≠ k0 := by
        intro hc
        exact hnd.1 (by rw [hq, ← hc]; exact List.mem_map.mpr ⟨q', hq', rfl⟩)
      rw [if_neg (by simpa using this)]
    · have hq2 : q.2 ≠ ex := fun hc => hq (hiff.mp hc)
      simp only [List.map_cons, replaceFirst, if_neg hq2, beq_iff_eq, if_neg hq]
      rw [ih hnd.2 (fun q' hq' => hal q' (List.mem_cons_of_mem q hq'))]
      congr 1
      refine List.map_congr_left ?_
      intro q' _
      by_cases hq' : q'.1 = k0 <;> simp [hq']

theorem dictSet_of_found {m : List (String × SourceUser)} {k : String}
    {ex : SourceUser} (u : SourceUser) (hex : (k, ex) ∈ m) :
    dictSet m k u = m.map (fun q => if q.1 == k then (k, u) else q) := by
  unfold dictSet
  rw [if_pos]
  exact List.any_eq_true.mpr ⟨(k, ex), hex, by simp⟩

theorem map_fst_dictSet_map {m : List (String × SourceUser)} {k : String}
    {u : SourceUser} :
    (m.map (fun q => if q.1 == k then (k, u) else q)).map Prod.fst = m.map Prod.fst := by
  rw [List.map_map]
  refine List.map_congr_left ?_
  intro q _
  by_cases hq : q.1 = k
  · simp [hq]
  · simp [hq]

theorem map_snd_dictSet_map {m : List (String × SourceUser)} {k : String}
    {u : SourceUser} :
    (m.map (fun q => if q.1 == k then (k, u) else q)).map Prod.snd
      = m.map (fun q => if q.1 == k then u else q.2) := by
  rw [List.map_map]
  refine List.map_congr_left ?_
  intro q _
  by_cases hq : q.1 = k
  · simp [hq]
  · simp [hq]

theorem mem_dictSet_map_iff {m : List (String × SourceUser)} {k0 : String}
    {u : SourceUser} {k : String} {v : SourceUser} :
    ((k, v) ∈ m.map (fun q => if q.1 == k0 then (k0, u) else q)) ↔
      ((k ≠ k0 ∧ (k, v) ∈ m) ∨ (k = k0 ∧ v = u ∧ ∃ w, (k0, w) ∈ m)) := by
  constructor
  · intro h
    rcases List.mem_map.mp h with ⟨q, hq, hfq⟩
    by_cases hqk : q.1 = k0
    · rw [if_pos (by simpa using hqk)] at hfq
      have hk : k = k0 := congrArg Prod.fst hfq.symm
      have hv : v = u := congrArg Prod.snd hfq.symm
      exact Or.inr ⟨hk, hv, q.2, by rw [← hqk]; exact hq⟩
    · rw [if_neg (by simpa using hqk)] at hfq
      subst hfq
      exact Or.inl ⟨hqk, hq⟩
  · rintro (⟨hne, hmem⟩ | ⟨rfl, rfl, w, hw⟩)
    · exact List.mem_map.mpr ⟨(k, v), hmem, by rw [if_neg (by simpa using hne)]⟩
    · exact List.mem_map.mpr ⟨(k, w), hw, by rw [if_pos (by simp)]⟩

/-- Full characterization of a successful `KEEP_LATEST` step. -/
theorem dedupStep_KL_spec {config : DedupConfig} {st : DedupState} {user : SourceUser}
    {st' : DedupState} (hKL : config.strategy = DedupStrategy.KEEP_LATEST)
    (h : dedupStep config st user = .ok st') :
    (_extract_key config user = none ∧ st'.seen = st.seen ∧
      st'.unique_users = st.unique_users) ∨
    (∃ k0, _extract_key config user = some k0 ∧ dictFind st.seen k0 = none ∧
      st'.seen = st.seen ++ [(k0, user)] ∧
      st'.unique_users = st.unique_users ++ [user]) ∨
    (∃ k0 ex, _extract_key config user = some k0 ∧ dictFind st.seen k0 = some ex ∧
      _should_replace user ex = true ∧ st.unique_users.contains ex = true ∧
      st'.seen = dictSet st.seen k0 user ∧
      st'.unique_users = replaceFirst st.unique_users ex user) ∨
    (∃ k0 ex, _extract_key config user = some k0 ∧ dictFind st.seen k0 = some ex ∧
      (_should_replace user ex = false ∨ st.unique_users.contains ex = false) ∧
      st'.seen = st.seen ∧ st'.unique_users = st.unique_users) := by
  simp only [dedupStep] at h
  repeat' split at h
  all_goals cases h
  all_goals first
    | exact Or.inl ⟨by assumption, rfl, rfl⟩
    | exact Or.inr (Or.inl ⟨_, by assumption, by assumption,
        dictSet_of_not_mem _ (dictFind_eq_none.mp (by assumption)), rfl⟩)
    | exact absurd (by assumption : config.strategy = DedupStrategy.ERROR)
        (by rw [hKL]; intro hc; cases hc)
    | exact Or.inr (Or.inr (Or.inl ⟨_, _, by assumption, by assumption, by assumption,
        by assumption, rfl, rfl⟩))
    | exact Or.inr (Or.inr (Or.inr ⟨_, _, by assumption, by assumption,
        Or.inr (by rw [Bool.eq_false_iff]; assumption), rfl, rfl⟩))
    | exact Or.inr (Or.inr (Or.inr ⟨_, _, by assumption, by assumption,
        Or.inl (by rw [Bool.eq_false_iff]; assumption), rfl, rfl⟩))
    | exact absurd hKL (by assumption)

/-- Simulation invariant of a `KEEP_LATEST` run: after consuming the input,
`seen` holds, in first-appearance key order, the canonical record of each key,
and `unique_users` is exactly its list of values. -/
theorem dedupGo_KL {config : DedupConfig} (hKL : config.strategy = DedupStrategy.KEEP_LATEST) :
    ∀ (l p : List SourceUser) (st st' : DedupState),
      dedupGo config st l = .ok st' →
      st.seen.map Prod.fst = firstKeys config p →
      (∀ k u, (k, u) ∈ st.seen ↔ canonKL config k p = some u) →
      st.unique_users = st.seen.map Prod.snd →
      st'.seen.map Prod.fst = firstKeys config (p ++ l) ∧
      (∀ k u, (k, u) ∈ st'.seen ↔ canonKL config k (p ++ l) = some u) ∧
      st'.unique_users = st'.seen.map Prod.snd := by
  intro l
  induction l with
  | nil =>
    intro p st st' h h1 h2 h3
    cases h
    rw [List.append_nil]
    exact ⟨h1, h2, h3⟩
  | cons u us ih =>
    intro p st st' h h1 h2 h3
    simp only [dedupGo] at h
    split at h
    · cases h
    · rename_i st1 hstep
      have hassoc : (p ++ [u]) ++ us = p ++ u :: us := by
        rw [List.append_assoc, List.singleton_append]
      have main : st1.seen.map Prod.fst = firstKeys config (p ++ [u]) ∧
          (∀ k v, (k, v) ∈ st1.seen ↔ canonKL config k (p ++ [u]) = some v) ∧
          st1.unique_users = st1.seen.map Prod.snd := by
        rcases dedupStep_KL_spec hKL hstep with
          ⟨hnone, hseen, huniq⟩ |
          ⟨k0, hk0, hfind, hseen, huniq⟩ |
          ⟨k0, ex, hk0, hfind, hrep, hcont, hseen, huniq⟩ |
          ⟨k0, ex, hk0, hfind, hbad, hseen, huniq⟩
        · refine ⟨?_, ?_, ?_⟩
          · rw [hseen, firstKeys_append_none hnone]
            exact h1
          · intro k v
            rw [hseen, canonKL_append_other (by rw [hnone]; intro hc; cases hc)]
            exact h2 k v
          · rw [huniq, hseen]
            exact h3
        · have hnomem : ∀ q ∈ st.seen, q.1 ≠ k0 := dictFind_eq_none.mp hfind
          have hnotk : k0 ∉ firstKeys config p := by
            rw [← h1]
            intro hc
            rcases List.mem_map.mp hc with ⟨q, hq, hfq⟩
            exact hnomem q hq hfq
          have hcan0 : canonKL config k0 p = none := by
            cases hc : canonKL config k0 p with
            | none => rfl
            | some v =>
              exact absurd hfind (by
                have := (h2 k0 v).mpr hc
                intro hn
                exact dictFind_ne_none_of_mem this hn)
          refine ⟨?_, ?_, ?_⟩
          · rw [hseen, List.map_append, h1, firstKeys_append_new hk0 p hnotk]
            rfl
          · intro k v
            rw [hseen, List.mem_append, List.mem_singleton, Prod.mk.injEq]
            by_cases hk : k = k0
            · subst hk
              rw [canonKL_append_fresh hk0 p hcan0]
              constructor
              · rintro (hmem | ⟨-, rfl⟩)
                · exact absurd rfl (hnomem _ hmem)
                · rfl
              · intro hv
                exact Or.inr ⟨rfl, (Option.some.inj hv).symm⟩
            · rw [canonKL_append_other (by
                  rw [hk0]
                  intro hc
                  exact hk (Option.some.inj hc).symm)]
              constructor
              · rintro (hmem | ⟨hkk, -⟩)
                · exact (h2 k v).mp hmem
                · exact absurd hkk hk
              · intro hv
                exact Or.inl ((h2 k v).mpr hv)
          · rw [huniq, hseen, List.map_append, h3]
            rfl
        · have hex : (k0, ex) ∈ st.seen := dictFind_mem hfind
          have hnd : (st.seen.map Prod.fst).Nodup := by
            rw [h1]
            exact firstKeys_nodup config p
          have hcanon : canonKL config k0 p = some ex := (h2 k0 ex).mp hex
          have hkeyed : ∀ q ∈ st.seen, _extract_key config q.2 = some q.1 := by
            intro q hq
            exact canonKL_key (fun c hc => Option.noConfusion hc) q.2
              ((h2 q.1 q.2).mp hq)
          have hal : ∀ q ∈ st.seen, q.2 = ex ↔ q.1 = k0 := by
            intro q hq
            constructor
            · intro hv
              have h01 := hkeyed q hq
              have h02 := hkeyed (k0, ex) hex
              rw [hv] at h01
              rw [h01] at h02
              exact Option.some.inj h02
            · intro hk1
              refine mem_unique_of_nodup_keys hnd ?_ hex
              rw [← hk1]
              exact hq
          have hseen' : st1.seen
              = st.seen.map (fun q => if q.1 == k0 then (k0, u) else q) := by
            rw [hseen, dictSet_of_found u hex]
          have hk0mem : k0 ∈ firstKeys config p := by
            rw [← h1]
            exact List.mem_map.mpr ⟨(k0, ex), hex, rfl⟩
          refine ⟨?_, ?_, ?_⟩
          · rw [hseen', map_fst_dictSet_map, h1, firstKeys_append_mem hk0 p hk0mem]
          · intro k v
            rw [hseen', mem_dictSet_map_iff]
            by_cases hk : k = k0
            · subst hk
              rw [canonKL_append_dup hk0 p hcanon, if_pos (by rw [hrep])]
              constructor
              · rintro (⟨hne, -⟩ | ⟨-, rfl, -⟩)
                · exact absurd rfl hne
                · rfl
              · intro hv
                exact Or.inr ⟨rfl, (Option.some.inj hv).symm, ex, hex⟩
            · rw [canonKL_append_other (by
                  rw [hk0]
                  intro hc
                  exact hk (Option.some.inj hc).symm)]
              constructor
              · rintro (⟨-, hmem⟩ | ⟨hkk, -⟩)
                · exact (h2 k v).mp hmem
                · exact absurd hkk hk
              · intro hv
                exact Or.inl ⟨hk, (h2 k v).mpr hv⟩
          · rw [huniq, h3, hseen', map_snd_dictSet_map, replaceFirst_map_snd hnd hal]
        · have hex : (k0, ex) ∈ st.seen := dictFind_mem hfind
          have hnd : (st.seen.map Prod.fst).Nodup := by
            rw [h1]
            exact firstKeys_nodup config p
          have hcanon : canonKL config k0 p = some ex := (h2 k0 ex).mp hex
          have hrepf : _should_replace u ex = false := by
            rcases hbad with hb | hb
            · exact hb
            · exfalso
              have hmem : ex ∈ st.unique_users := by
                rw [h3]
                exact List.mem_map.mpr ⟨(k0, ex), hex, rfl⟩
              have hc : st.unique_users.contains ex = true := List.elem_eq_true_of_mem hmem
              rw [hb] at hc
              cases hc
          have hk0mem : k0 ∈ firstKeys config p := by
            rw [← h1]
            exact List.mem_map.mpr ⟨(k0, ex), hex, rfl⟩
          refine ⟨?_, ?_, ?_⟩
          · rw [hseen, h1, firstKeys_append_mem hk0 p hk0mem]
          · intro k v
            rw [hseen]
            by_cases hk : k = k0
            · subst hk
              rw [canonKL_append_dup hk0 p hcanon, if_neg (by rw [hrepf]; intro hc; cases hc)]
              constructor
              · intro hmem
                rw [mem_unique_of_nodup_keys hnd hmem hex]
              · intro hv
                obtain rfl := Option.some.inj hv
                exact hex
            · rw [canonKL_append_other (by
                  rw [hk0]
                  intro hc
                  exact hk (Option.some.inj hc).symm)]
              exact h2 k v
          · rw [huniq, hseen]
            exact h3
      obtain ⟨a1, a2, a3⟩ := ih (p ++ [u]) st1 st' h main.1 main.2.1 main.2.2
      rw [hassoc] at a1 a2
      exact ⟨a1, a2, a3⟩

/-- C3: in a `KEEP_LATEST` run the output aligns position-by-position with
the keys in order of first appearance; the record at a key's position is one
of the records with that key, carries the maximum creation timestamp among
those that have one (under the strictly-greater replacement rule, stated as
the last conjunct), and is the first-seen record when none has a
timestamp. -/
theorem dedup_keep_latest (config : DedupConfig) (users : List SourceUser)
    (out : List SourceUser) (stats : DedupStats) (conflicts : List ConflictRecord)
    (hKL : config.strategy = DedupStrategy.KEEP_LATEST)
    (h : deduplicate config users = .ok (out, stats, conflicts)) :
    out.length = (firstKeys config users).length ∧
    (∀ (i : Nat) (k : String), (firstKeys config users)[i]? = some k →
      ∃ c : SourceUser, out[i]? = some c ∧
        _extract_key config c = some k ∧
        c ∈ usersWith config k users ∧
        ((∃ r ∈ usersWith config k users, (r.created_at).isSome = true) →
          ∃ t : Int, c.created_at = some t ∧
            ∀ r ∈ usersWith config k users, ∀ t' : Int, r.created_at = some t' → t' ≤ t) ∧
        ((∀ r ∈ usersWith config k users, r.created_at = none) →
          (usersWith config k users).head? = some c)) ∧
    (∀ n e : SourceUser, _should_replace n e = true ↔
      ∃ tn : Int, n.created_at = some tn ∧
        (e.created_at = none ∨ ∃ te : Int, e.created_at = some te ∧ te < tn)) := by
  have hNONE : ¬config.strategy = DedupStrategy.NONE := by
    rw [hKL]
    intro hc
    cases hc
  unfold deduplicate at h
  rw [if_neg hNONE] at h
  cases hgo : dedupGo config initState users with
  | error e => rw [hgo] at h; cases h
  | ok st =>
    rw [hgo] at h
    cases h
    obtain ⟨h1, h2, h3⟩ := dedupGo_KL hKL users [] initState st hgo
      (by simp [initState, firstKeys])
      (by intro k u; simp [initState, canonKL])
      (by simp [initState])
    rw [List.nil_append] at h1 h2
    refine ⟨?_, ?_, should_replace_iff⟩
    · rw [h3, ← h1]
      simp
    · intro i k hik
      rw [← h1, List.getElem?_map] at hik
      cases hq : st.seen[i]? with
      | none => rw [hq] at hik; cases hik
      | some q =>
        rw [hq] at hik
        simp only [Option.map_some'] at hik
        have hk : q.1 = k := Option.some.inj hik
        have hmem : (k, q.2) ∈ st.seen := by
          rw [← hk]
          exact List.getElem?_mem hq
        have hcanon : canonKL config k users = some q.2 := (h2 k q.2).mp hmem
        obtain ⟨hm, hhead, hub, hnone⟩ := canonKL_max hcanon
        refine ⟨q.2, ?_, ?_, hm, ?_, hhead⟩
        · rw [h3, List.getElem?_map, hq]
          rfl
        · exact canonKL_key (fun c hc => Option.noConfusion hc) q.2 hcanon
        · rintro ⟨r, hr, hrts⟩
          cases hct : q.2.created_at with
          | none =>
            rw [hnone hct r hr] at hrts
            cases hrts
          | some t => exact ⟨t, rfl, hub t hct⟩

/-- Witness for C3 on the spec's end-to-end example: two records share the
email key, the later-timestamped one is canonical and sits at the key's
first-appearance position. -/
theorem dedup_keep_latest_witness :
    ∃ c : SourceUser, ([kr2] : List SourceUser)[0]? = some c ∧
      _extract_key klCfg c = some "a@x.com" ∧
      c ∈ usersWith klCfg "a@x.com" [kr1, kr2] ∧
      ((∃ r ∈ usersWith klCfg "a@x.com" [kr1, kr2], (r.created_at).isSome = true) →
        ∃ t : Int, c.created_at = some t ∧
          ∀ r ∈ usersWith klCfg "a@x.com" [kr1, kr2], ∀ t' : Int,
            r.created_at = some t' → t' ≤ t) ∧
      ((∀ r ∈ usersWith klCfg "a@x.com" [kr1, kr2], r.created_at = none) →
        (usersWith klCfg "a@x.com" [kr1, kr2]).head? = some c) :=
  (dedup_keep_latest klCfg [kr1, kr2] [kr2] ⟨2, 1, 1, 0⟩ [⟨"a@x.com", kr1, kr2⟩] rfl
    (by decide)).2.1 0 "a@x.com" (by decide)

end AuthGateway
